import Mathlib

/-!
Shallow embedding of the suggestion-reconciliation and live-overlay engine of
the lang-helper browser extension (src/background.js, src/content.js).

Text buffers are modelled as `List Char` (one entry per UTF-16 code unit of
the JS string, which is exact for the BMP inputs used here).  JS numbers that
hold character offsets are modelled as `Int` (they are produced and consumed
as integers by the source).  JS string primitives (`substring`, `indexOf`,
`toLowerCase`, `trim`) are modelled by `jsSubstring`, `jsIndexOf`,
`jsToLower`, `jsTrim` below with their ECMAScript clamping/first-occurrence
semantics.
-/

namespace LangHelper

/-- One oracle suggestion as it flows through the system: `start`/`stop`
model the JS `start`/`end` fields (`end` is a Lean keyword), `problematicText`
the literal the oracle claims occupies `[start, end)`, `correction` the
replacement offered, `severity` the severity tag. -/
structure Sug where
  start : Int
  stop : Int
  problematicText : List Char
  correction : List Char
  severity : List Char
deriving DecidableEq, Repr

/-- ECMAScript `String.prototype.substring` argument clamping: negative
becomes 0, above the length becomes the length. -/
def jsClamp (n : Int) (len : Nat) : Nat :=
  if n < 0 then 0 else min n.toNat len

/-- ECMAScript `text.substring(a, b)`: clamp both arguments to `[0, len]`,
swap when out of order, return the half-open slice. -/
def jsSubstring (t : List Char) (a b : Int) : List Char :=
  let x := jsClamp a t.length
  let y := jsClamp b t.length
  (t.take (max x y)).drop (min x y)

/-- ECMAScript `text.substring(a)` (one-argument form): slice to the end. -/
def jsSubstringFrom (t : List Char) (a : Int) : List Char :=
  jsSubstring t a t.length

/-- ECMAScript `text.indexOf(pat)`: index of the first occurrence of `pat`
in `t` (`none` models the JS return value `-1`). -/
def jsIndexOf (t pat : List Char) : Option Nat :=
  (List.range (t.length + 1)).find? (fun i => pat.isPrefixOf (t.drop i))

/-- ECMAScript `text.toLowerCase()`, modelled code-unit-wise with Lean's
`Char.toLower` (exact on the ASCII inputs exercised here). -/
def jsToLower (t : List Char) : List Char :=
  t.map Char.toLower

/-- A character the ECMAScript `trim` removes (the common whitespace set). -/
def jsIsWhitespace (c : Char) : Bool :=
  c = ' ' || c = '\n' || c = '\t' || c = '\r'

/-- ECMAScript `text.trim()`: strip whitespace from both ends. -/
def jsTrim (t : List Char) : List Char :=
  ((t.dropWhile jsIsWhitespace).reverse.dropWhile jsIsWhitespace).reverse

/-! ## OffsetValidator (src/background.js, `analyzeTextWithLLM` lines 106-155)

The per-suggestion verification/auto-correction pass: exact offsets, then a
case-sensitive `indexOf` relocation, then a case-insensitive relocation,
otherwise the suggestion is dropped (`null`). -/

/-- The reconciliation of one raw suggestion against the analyzed text,
as performed inside the `suggestions.map` callback of `analyzeTextWithLLM`. -/
def reconcile (text : List Char) (s : Sug) : Option Sug :=
  let actualText := jsSubstring text s.start s.stop
  if actualText = s.problematicText then
    some s
  else
    match jsIndexOf text s.problematicText with
    | some foundIndex =>
        some { s with start := (foundIndex : Int),
                      stop := (foundIndex : Int) + (s.problematicText.length : Int) }
    | none =>
        match jsIndexOf (jsToLower text) (jsToLower s.problematicText) with
        | some foundIndex =>
            some { s with start := (foundIndex : Int),
                          stop := (foundIndex : Int) + (s.problematicText.length : Int) }
        | none => none

/-- The whole verification pass: `suggestions.map(...).filter(s => s !== null)`. -/
def analyzeResults (text : List Char) (sugs : List Sug) : List Sug :=
  (sugs.map (reconcile text)).filterMap id

/-! ## Oracle payload handling (src/background.js, `parseJSONResponse`) -/

/-- The shape of the oracle's textual payload after JSON handling:
a well-formed JSON array of suggestions, valid JSON that is not an array,
or text `JSON.parse` rejects. -/
inductive Payload where
  | jsonArray (sugs : List Sug)
  | jsonNonArray
  | unparseable
deriving DecidableEq

/-- `parseJSONResponse`: a well-formed array is returned as-is; a non-array
parse result or a parse failure yields the empty list. -/
def parseJSONResponse : Payload → List Sug
  | Payload.jsonArray sugs => sugs
  | Payload.jsonNonArray => []
  | Payload.unparseable => []

/-- What the background worker sends back to the content script: either a
`suggestions` list or an `error` (thrown fetch/auth failure). -/
inductive OracleResponse where
  | suggestions (sugs : List Sug)
  | error
deriving DecidableEq

/-- The background analysis round on a payload that was received over the
wire: parse, reconcile each suggestion, drop the irreparable ones.  A thrown
failure (network/auth) instead produces `OracleResponse.error` via the
message listener's catch branch. -/
def backgroundAnalyze (text : List Char) (p : Payload) : OracleResponse :=
  OracleResponse.suggestions (analyzeResults text (parseJSONResponse p))

/-! ## Content-script state for one analysis round (src/content.js,
`analyzeText` lines 94-128 and `displaySuggestions`) -/

/-- Per-element state the round mutates: the `elementSuggestions` entry
(analyzed text and its suggestion list) and the rendered highlights. -/
structure BufState where
  stored : Option (List Char × List Sug)
  highlights : List Sug
deriving DecidableEq

/-- Effect of one analysis round on an element's state.  On a response that
carries `suggestions`, the stored entry is replaced and
`displaySuggestions` runs (`removeHighlights` first, then nothing more when
the list is empty); on an error response nothing happens (the catch branch
is silent). -/
def contentRound (st : BufState) (text : List Char) (resp : OracleResponse) : BufState :=
  match resp with
  | OracleResponse.error => st
  | OracleResponse.suggestions sugs =>
      let st1 : BufState := { st with stored := some (text, sugs) }
      { st1 with highlights := if sugs.isEmpty then [] else sugs }

/-! ## Single-flight guard (src/content.js, `analyzeText` entry) -/

/-- The globals `analyzeText` consults before issuing a request. -/
structure SessionState where
  currentAnalysis : Option (List Char)
  stored : Option (List Char × List Sug)
deriving DecidableEq

/-- The synchronous prefix of `analyzeText`: the short-text gate, the
single-flight check on `currentAnalysis`, and (only when both pass) marking
the analysis in flight.  The returned `Bool` records whether an oracle
request was issued (`chrome.runtime.sendMessage` reached). -/
def analyzeTextInvoke (st : SessionState) (text : List Char) : SessionState × Bool :=
  if text = [] ∨ (jsTrim text).length < 10 then
    (st, false)
  else if st.currentAnalysis.isSome then
    (st, false)
  else
    ({ st with currentAnalysis := some text }, true)

/-! ## Debounce timer (src/content.js, `handleTextInput` lines 79-92) -/

/-- The settings `handleTextInput` consults (`apiKey = []` models the falsy
empty string / unset key). -/
structure Settings where
  enabled : Bool
  apiKey : List Char
deriving DecidableEq

/-- Page-wide state: the single module-level `analysisTimeout` variable,
holding the pending debounced analysis (element identity and its text),
or `none` when no timer is pending. -/
structure PageState where
  analysisTimeout : Option (Nat × List Char)
deriving DecidableEq

/-- `handleTextInput`: bail out when disabled or no key; otherwise
`clearTimeout(analysisTimeout)` followed by `analysisTimeout = setTimeout(...)`,
i.e. the single pending slot is overwritten with this element's analysis. -/
def handleTextInput (settings : Settings) (st : PageState) (element : Nat)
    (text : List Char) : PageState :=
  if !settings.enabled || settings.apiKey = [] then
    st
  else
    { st with analysisTimeout := some (element, text) }

/-! ## Correction application (src/content.js, `applySuggestion` lines 286-320) -/

/-- The text substitution `applySuggestion` performs:
`currentText.substring(0, start) + correction + currentText.substring(end)`. -/
def applyCorrectionText (currentText : List Char) (c : Sug) : List Char :=
  jsSubstring currentText 0 c.start ++ c.correction ++ jsSubstringFrom currentText c.stop

/-- The suggestion-index rebasing in `applySuggestion`: drop entries whose
`(start, end)` pair equals the corrected span's, then shift every entry with
`s.start >= suggestion.end` by `correction.length - (end - start)`. -/
def rebaseSuggestions (stored : List Sug) (c : Sug) : List Sug :=
  let lengthDiff : Int := (c.correction.length : Int) - (c.stop - c.start)
  (stored.filter (fun s => s.start != c.start || s.stop != c.stop)).map
    (fun s =>
      if s.start ≥ c.stop then
        { s with start := s.start + lengthDiff, stop := s.stop + lengthDiff }
      else
        s)

/-- The full effect of `applySuggestion` once the overlay and target element
have been resolved: the buffer text is replaced unconditionally, and the
stored index (when present) is rebased. -/
def applySuggestionModel (currentText : List Char) (stored : Option (List Sug))
    (c : Sug) : List Char × Option (List Sug) :=
  let newText := applyCorrectionText currentText c
  match stored with
  | none => (newText, none)
  | some sugs => (newText, some (rebaseSuggestions sugs c))

/-! ## Overlay projector (src/content.js, `createPositionedOverlay` lines 379-409) -/

/-- Model of `[...suggestions].sort((a, b) => a.start - b.start)`: a stable
sort ordering by `start` ascending (ECMAScript `Array.prototype.sort` is
stable, so insertion sort with a non-strict comparison is extensionally the
same function). -/
def sortByStart (l : List Sug) : List Sug :=
  l.insertionSort (fun a b => a.start ≤ b.start)

/-- The render loop of `createPositionedOverlay`: walking the sorted
suggestions with a running `lastIndex`, emitting an invisible run
`text.substring(lastIndex, s.start)`, a highlighted run
`text.substring(s.start, s.end)`, and finally the invisible tail
`text.substring(lastIndex)`.  Each produced pair is the raw text run and its
highlight flag (the source HTML-escapes each run on output, which does not
change which run of the text a segment denotes). -/
def buildRuns (text : List Char) : Int → List Sug → List (List Char × Bool)
  | lastIndex, [] => [(jsSubstring text lastIndex (text.length : Int), false)]
  | lastIndex, s :: rest =>
      (jsSubstring text lastIndex s.start, false) ::
      (jsSubstring text s.start s.stop, true) ::
      buildRuns text s.stop rest

/-- The full render plan of `createPositionedOverlay` for a suggestion set. -/
def renderRuns (sugs : List Sug) (text : List Char) : List (List Char × Bool) :=
  buildRuns text 0 (sortByStart sugs)

/-! ## Textarea overlay path (src/content.js, `createOverlayHighlights`
lines 145-166) -/

/-- The HTML escaping `escapeHtml` performs via a detached `div`'s
`textContent`/`innerHTML` round-trip: text-node serialization escapes
exactly `&`, `<` and `>`. -/
def escapeHtml (t : List Char) : List Char :=
  t.flatMap (fun c =>
    if c = '&' then ("&amp;".data)
    else if c = '<' then ("&lt;".data)
    else if c = '>' then ("&gt;".data)
    else [c])

/-- Model of `[...suggestions].sort((a, b) => b.start - a.start)` (stable,
`start` descending), used so replacements run from the end of the string
toward the front. -/
def sortByStartDesc (l : List Sug) : List Sug :=
  l.insertionSort (fun a b => b.start ≤ a.start)

/-- The opening wrapper tag interpolated around a highlighted run. -/
def spanOpen (index : Nat) (s : Sug) : List Char :=
  ("<span class=\"lang-helper-highlight\" data-suggestion-id=\"").data ++
    (toString index).data ++ ("\" data-severity=\"").data ++
    (if s.severity = [] then ("info").data else s.severity) ++ ("\">").data

/-- The closing wrapper tag. -/
def spanClose : List Char :=
  ("</span>").data

/-- The replacement loop of `createOverlayHighlights`, threading the evolving
`highlightedHTML` string and recording the `highlighted` slice each iteration
extracts (`highlightedHTML.substring(suggestion.start, suggestion.end)`). -/
def overlayAux : List Char → Nat → List Sug → List Char × List (List Char)
  | html, _, [] => (html, [])
  | html, index, s :: rest =>
      let before := jsSubstring html 0 s.start
      let highlighted := jsSubstring html s.start s.stop
      let after := jsSubstringFrom html s.stop
      let html1 := before ++ spanOpen index s ++ highlighted ++ spanClose ++ after
      let next := overlayAux html1 (index + 1) rest
      (next.1, highlighted :: next.2)

/-- The highlighted runs produced by `createOverlayHighlights`: the loop runs
over the descending-sorted suggestions, starting from the HTML-escaped copy
of the element's text. -/
def overlayHighlightRuns (sugs : List Sug) (text : List Char) : List (List Char) :=
  (overlayAux (escapeHtml text) 0 (sortByStartDesc sugs)).2

/-! ## Overlay position update (src/content.js, `updatePosition`
lines 560-585) -/

/-- A DOMRect-like box: `bottom`/`right` are derived as in a DOMRect. -/
structure Rect where
  top : Int
  left : Int
  width : Int
  height : Int
deriving DecidableEq, Repr

/-- DOMRect `bottom`. -/
def Rect.bottom (r : Rect) : Int := r.top + r.height

/-- DOMRect `right`. -/
def Rect.dright (r : Rect) : Int := r.left + r.width

/-- The `minTop`-style fold: starts at `-Infinity` (modelled `none`) and
keeps the largest value seen. -/
def foldMax (f : Rect → Int) (cs : List Rect) : Option Int :=
  cs.foldl (fun acc c =>
    match acc with
    | none => some (f c)
    | some m => if f c > m then some (f c) else some m) none

/-- The `maxBottom`-style fold: starts at `+Infinity` (modelled `none`) and
keeps the smallest value seen. -/
def foldMin (f : Rect → Int) (cs : List Rect) : Option Int :=
  cs.foldl (fun acc c =>
    match acc with
    | none => some (f c)
    | some m => if f c < m then some (f c) else some m) none

/-- The clipping computation of `updatePosition` ending at the
`isOutOfView` test: container-derived clips, viewport clips, the
non-negativity clamp, and the decision to hide the overlay
(`display:none`) when any clip reaches the host box's extent. -/
def updatePositionHidden (newRect : Rect) (containers : List Rect)
    (innerWidth innerHeight : Int) : Bool :=
  let minTop := foldMax (fun c => c.top) containers
  let maxBottom := foldMin (fun c => c.bottom) containers
  let minLeft := foldMax (fun c => c.left) containers
  let maxRight := foldMin (fun c => c.dright) containers
  let clipTop : Int :=
    match minTop with
    | some m => if m > newRect.top then m - newRect.top else 0
    | none => 0
  let clipBottom : Int :=
    match maxBottom with
    | some m => if m < newRect.bottom then newRect.bottom - m else 0
    | none => 0
  let clipLeft : Int :=
    match minLeft with
    | some m => if m > newRect.left then m - newRect.left else 0
    | none => 0
  let clipRight : Int :=
    match maxRight with
    | some m => if m < newRect.dright then newRect.dright - m else 0
    | none => 0
  let viewportTop := -newRect.top
  let viewportBottom := newRect.bottom - innerHeight
  let viewportLeft := -newRect.left
  let viewportRight := newRect.dright - innerWidth
  let clipTop := if viewportTop > clipTop then viewportTop else clipTop
  let clipBottom := if viewportBottom > clipBottom then viewportBottom else clipBottom
  let clipLeft := if viewportLeft > clipLeft then viewportLeft else clipLeft
  let clipRight := if viewportRight > clipRight then viewportRight else clipRight
  let clipTop := max 0 clipTop
  let clipBottom := max 0 clipBottom
  let clipLeft := max 0 clipLeft
  let clipRight := max 0 clipRight
  decide (clipTop ≥ newRect.height ∨ clipBottom ≥ newRect.height ∨
    clipLeft ≥ newRect.width ∨ clipRight ≥ newRect.width)

/-! ## Claim-side definitions (transcribed from the spec's words, for
comparison with the source-derived functions above) -/

/-- Claim-side rebasing of a span set after an accepted correction,
transcribed from the claim: the corrected span is removed by its
`(start, end)` pair; every remaining span with `s.start >= c.end` has both
bounds shifted by `len(replacement) - (c.end - c.start)`; every span with
`s.start < c.end` is unchanged. -/
def rebaseSpec (stored : List Sug) (c : Sug) : List Sug :=
  stored.filterMap (fun s =>
    if s.start = c.start ∧ s.stop = c.stop then
      none
    else if s.start ≥ c.stop then
      some { s with start := s.start + ((c.correction.length : Int) - (c.stop - c.start)),
                    stop := s.stop + ((c.correction.length : Int) - (c.stop - c.start)) }
    else
      some s)

/-- Claim-side ordering for the overlay projector, transcribed from the
claim: `start` ascending, ties broken by `end` ascending. -/
def sortByStartStop (l : List Sug) : List Sug :=
  l.insertionSort (fun a b => a.start < b.start ∨ (a.start = b.start ∧ a.stop ≤ b.stop))

/-- Claim-side partition of the text into alternating plain/highlighted runs
`[0, s1.start), [s1.start, s1.end), [s1.end, s2.start), ...` for an ordered
span list, transcribed from the claim. -/
def partitionRuns (text : List Char) : Nat → List Sug → List (List Char × Bool)
  | lastIndex, [] => [(text.drop lastIndex, false)]
  | lastIndex, s :: rest =>
      ((text.take s.start.toNat).drop lastIndex, false) ::
      ((text.take s.stop.toNat).drop s.start.toNat, true) ::
      partitionRuns text s.stop.toNat rest

instance : IsTotal Sug (fun a b => a.start ≤ b.start) :=
  ⟨fun a b => Int.le_total a.start b.start⟩

instance : IsTrans Sug (fun a b => a.start ≤ b.start) :=
  ⟨fun _ _ _ h1 h2 => le_trans h1 h2⟩

/-! ## Helper lemmas -/

theorem jsClamp_coe (n len : Nat) : jsClamp (n : Int) len = min n len := by
  simp [jsClamp]

theorem jsSubstring_coe (t : List Char) (a b : Nat) (hab : a ≤ b)
    (hb : b ≤ t.length) : jsSubstring t (a : Int) (b : Int) = (t.take b).drop a := by
  have ha' : min a t.length = a := Nat.min_eq_left (le_trans hab hb)
  have hb' : min b t.length = b := Nat.min_eq_left hb
  simp [jsSubstring, jsClamp_coe, ha', hb', Nat.max_eq_right hab, Nat.min_eq_left hab]

theorem jsIndexOf_found (t pat : List Char) (i : Nat)
    (h : jsIndexOf t pat = some i) :
    i ≤ t.length ∧ pat <+: t.drop i := by
  have hmem := List.mem_of_find?_eq_some h
  have hp := List.find?_some h
  refine ⟨?_, List.isPrefixOf_iff_prefix.mp hp⟩
  have := List.mem_range.mp hmem
  omega

theorem length_le_of_isPrefixOfDrop {t pat : List Char} {i : Nat}
    (h : pat <+: t.drop i) (hi : i ≤ t.length) : i + pat.length ≤ t.length := by
  obtain ⟨rest, hrest⟩ := h
  have := congrArg List.length hrest
  simp [List.length_drop] at this
  omega

theorem slice_of_isPrefixOfDrop {t pat : List Char} {i : Nat}
    (h : pat <+: t.drop i) : (t.take (i + pat.length)).drop i = pat := by
  obtain ⟨rest, hrest⟩ := h
  rw [List.drop_take]
  have : i + pat.length - i = pat.length := by omega
  rw [this, ← hrest, List.take_left]

theorem slice_append_drop (l : List Char) (a b : Nat) (hab : a ≤ b)
    (hb : b ≤ l.length) : (l.take b).drop a ++ l.drop b = l.drop a := by
  conv_rhs => rw [← List.take_append_drop b l]
  rw [List.drop_append_eq_append_drop]
  have hlen : (l.take b).length = b := by
    simp [List.length_take, Nat.min_eq_left hb]
  rw [hlen, Nat.sub_eq_zero_of_le hab, List.drop_zero]

theorem escapeHtml_take_eq (text : List Char) (n : Nat)
    (hok : ∀ c ∈ text.take n, c ≠ '&' ∧ c ≠ '<' ∧ c ≠ '>') :
    escapeHtml text = text.take n ++ escapeHtml (text.drop n) := by
  induction text generalizing n with
  | nil => simp
  | cons c t ih =>
      cases n with
      | zero => simp
      | succ m =>
          have hc := hok c (by simp)
          have hesc : escapeHtml (c :: t) = c :: escapeHtml t := by
            simp [escapeHtml, hc.1, hc.2.1, hc.2.2]
          rw [hesc, List.take_succ_cons, List.drop_succ_cons,
            ih m (fun d hd => hok d (by simp [hd]))]
          simp

theorem buildRuns_eq_partition (text : List Char) (l : List Sug) :
    ∀ (lastN : Nat), lastN ≤ text.length →
    (∀ s, l.head? = some s → (lastN : Int) ≤ s.start) →
    (∀ s ∈ l, 0 ≤ s.start ∧ s.start ≤ s.stop ∧ s.stop ≤ (text.length : Int)) →
    l.Chain' (fun a b => a.stop ≤ b.start) →
    buildRuns text (lastN : Int) l = partitionRuns text lastN l := by
  induction l with
  | nil =>
      intro lastN hlast _ _ _
      simp only [buildRuns, partitionRuns]
      rw [jsSubstring_coe text lastN text.length hlast le_rfl, List.take_length]
  | cons s rest ih =>
      intro lastN hlast hhead hb hch
      obtain ⟨hs0, hsse, hsl⟩ := hb s (List.mem_cons_self _ _)
      have hls : (lastN : Int) ≤ s.start := hhead s rfl
      set aN := s.start.toNat with haN
      set bN := s.stop.toNat with hbN
      have ha : (aN : Int) = s.start := Int.toNat_of_nonneg hs0
      have hb2 : (bN : Int) = s.stop := Int.toNat_of_nonneg (le_trans hs0 hsse)
      have h1 : lastN ≤ aN := by omega
      have h2 : aN ≤ bN := by omega
      have h3 : bN ≤ text.length := by omega
      simp only [buildRuns, partitionRuns]
      rw [← ha, ← hb2, jsSubstring_coe text lastN aN h1 (le_trans h2 h3),
        jsSubstring_coe text aN bN h2 h3]
      refine congrArg _ (congrArg _ ?_)
      refine ih bN h3 ?_ (fun t ht => hb t (List.mem_cons_of_mem _ ht)) hch.tail
      intro t ht
      cases rest with
      | nil => exact absurd ht (by simp)
      | cons t' r' =>
          have htt : t = t' := by
            have : some t' = some t := ht
            exact (Option.some.inj this).symm
          subst htt
          have hrel : s.stop ≤ t.start := (List.chain'_cons.mp hch).1
          omega

theorem partitionRuns_flatten (text : List Char) (l : List Sug) :
    ∀ (lastN : Nat), lastN ≤ text.length →
    (∀ s, l.head? = some s → (lastN : Int) ≤ s.start) →
    (∀ s ∈ l, 0 ≤ s.start ∧ s.start ≤ s.stop ∧ s.stop ≤ (text.length : Int)) →
    l.Chain' (fun a b => a.stop ≤ b.start) →
    ((partitionRuns text lastN l).map Prod.fst).flatten = text.drop lastN := by
  induction l with
  | nil =>
      intro lastN _ _ _ _
      simp [partitionRuns]
  | cons s rest ih =>
      intro lastN hlast hhead hb hch
      obtain ⟨hs0, hsse, hsl⟩ := hb s (List.mem_cons_self _ _)
      have hls : (lastN : Int) ≤ s.start := hhead s rfl
      set aN := s.start.toNat with haN
      set bN := s.stop.toNat with hbN
      have ha : (aN : Int) = s.start := Int.toNat_of_nonneg hs0
      have hb2 : (bN : Int) = s.stop := Int.toNat_of_nonneg (le_trans hs0 hsse)
      have h1 : lastN ≤ aN := by omega
      have h2 : aN ≤ bN := by omega
      have h3 : bN ≤ text.length := by omega
      simp only [partitionRuns, List.map_cons, List.flatten_cons]
      have hrest : ((partitionRuns text bN rest).map Prod.fst).flatten = text.drop bN := by
        refine ih bN h3 ?_ (fun t ht => hb t (List.mem_cons_of_mem _ ht)) hch.tail
        intro t ht
        cases rest with
        | nil => exact absurd ht (by simp)
        | cons t' r' =>
            have htt : t = t' := by
              have : some t' = some t := ht
              exact (Option.some.inj this).symm
            subst htt
            have hrel : s.stop ≤ t.start := (List.chain'_cons.mp hch).1
            omega
      rw [hrest, slice_append_drop text aN bN h2 h3,
        slice_append_drop text lastN aN h1 (le_trans h2 h3)]

/-! ## Claim theorems -/

/-- C2 (code_bug evidence): applying a correction whose `(start, end)` pair
is absent from the element's stored suggestion index is not a no-op —
`applySuggestion` replaces the buffer text at the stale offsets and shifts
the stored spans anyway.  Here the stored index holds only the span
`(8, 11)`, the applied suggestion `(0, 3)` is not in the index, and yet the
text changes and the stored span is rebased to `(7, 10)`. -/
theorem applySuggestion_stale_mutates :
    applySuggestionModel ("abc def ghi".data)
        (some [⟨8, 11, "ghi".data, "X".data, "info".data⟩])
        ⟨0, 3, "abc".data, "ab".data, "info".data⟩ =
      ("ab def ghi".data, some [⟨7, 10, "ghi".data, "X".data, "info".data⟩]) ∧
    ((0 : Int), (3 : Int)) ∉
      ([⟨8, 11, "ghi".data, "X".data, "info".data⟩] : List Sug).map
        (fun s => (s.start, s.stop)) ∧
    ("ab def ghi".data ≠ "abc def ghi".data) := by
  decide

/-- C3 (counterexample): a malformed oracle payload does not have the same
effect as an oracle failure.  Starting from a state with one stored span and
one rendered highlight, the malformed-payload round clears both while the
failure round leaves the state unchanged. -/
theorem malformed_differs_from_failure :
    contentRound
        ⟨some ("Helo wrld".data, [⟨0, 4, "Helo".data, "Hello".data, "error".data⟩]),
          [⟨0, 4, "Helo".data, "Hello".data, "error".data⟩]⟩
        ("Helo wrld".data)
        (backgroundAnalyze ("Helo wrld".data) Payload.unparseable) ≠
      contentRound
        ⟨some ("Helo wrld".data, [⟨0, 4, "Helo".data, "Hello".data, "error".data⟩]),
          [⟨0, 4, "Helo".data, "Hello".data, "error".data⟩]⟩
        ("Helo wrld".data) OracleResponse.error := by
  decide

/-- C3 (amended): a malformed oracle payload (unparseable text or a non-array
JSON value) is parsed as the empty suggestion list and applied as a
successful empty round — the element's stored suggestions are replaced by
the empty set for the analyzed text and the prior highlights are removed —
whereas a genuine oracle failure leaves stored spans and highlights
unchanged. -/
theorem malformed_payload_empty_round (st : BufState) (text : List Char) :
    contentRound st text (backgroundAnalyze text Payload.unparseable) =
      { stored := some (text, []), highlights := [] } ∧
    contentRound st text (backgroundAnalyze text Payload.jsonNonArray) =
      { stored := some (text, []), highlights := [] } ∧
    contentRound st text OracleResponse.error = st :=
  ⟨rfl, rfl, rfl⟩

/-- C4: the span-set rebasing performed by `applySuggestion` is exactly the
claim's description `rebaseSpec`: the corrected span is removed by its
`(start, end)` pair (not by reference — the model is value-based and the
filter compares the pair), every remaining span with `s.start >= c.end` has
both bounds shifted by `len(replacement) - (c.end - c.start)`, and every
span with `s.start < c.end` is unchanged. -/
theorem rebase_eq_rebaseSpec (stored : List Sug) (c : Sug) :
    rebaseSuggestions stored c = rebaseSpec stored c := by
  unfold rebaseSuggestions rebaseSpec
  induction stored with
  | nil => rfl
  | cons s t ih =>
      by_cases h : s.start = c.start ∧ s.stop = c.stop
      · simp only [List.filter_cons, List.filterMap_cons, h.1, h.2, bne_self_eq_false,
          Bool.or_self, Bool.false_eq_true, if_false, and_self, if_true]
        exact ih
      · have hb : (s.start != c.start || s.stop != c.stop) = true := by
          rcases not_and_or.mp h with h' | h' <;> simp [h']
        simp only [List.filter_cons, List.filterMap_cons, hb, if_true, List.map_cons,
          if_neg h]
        by_cases h2 : s.start ≥ c.stop <;> simp [h2, ih]

/-- C5: when the oracle's offsets do not match the text and the literal
occurs in the text neither case-sensitively nor case-insensitively,
reconciliation returns `null` and the suggestion is dropped from the
result list. -/
theorem reconcile_reject (text : List Char) (s : Sug) (pre post : List Sug)
    (h1 : jsSubstring text s.start s.stop ≠ s.problematicText)
    (h2 : jsIndexOf text s.problematicText = none)
    (h3 : jsIndexOf (jsToLower text) (jsToLower s.problematicText) = none) :
    reconcile text s = none ∧
    analyzeResults text (pre ++ s :: post) = analyzeResults text (pre ++ post) := by
  have hrec : reconcile text s = none := by
    unfold reconcile
    simp [h1, h2, h3]
  refine ⟨hrec, ?_⟩
  unfold analyzeResults
  simp [List.map_append, List.filterMap_append, hrec]

/-- Witness for C5 at a concrete input: `"xyz"` occurs nowhere in `"abc"`. -/
theorem reconcile_reject_witness :
    (jsSubstring ("abc".data) (0 : Int) 1 ≠ "xyz".data) ∧
    reconcile ("abc".data) ⟨0, 1, "xyz".data, [], []⟩ = none ∧
    analyzeResults ("abc".data) [⟨0, 1, "xyz".data, [], []⟩] = analyzeResults ("abc".data) [] :=
  have h := reconcile_reject ("abc".data) ⟨0, 1, "xyz".data, [], []⟩ [] []
    (by decide) (by decide) (by decide)
  ⟨by decide, h.1, h.2⟩

/-- C6: when an analysis is already in flight, a new invocation of
`analyzeText` is dropped: no oracle request is issued and the state — in
particular the stored suggestion index — is left untouched (there is no
queue to add to). -/
theorem analyzeText_singleFlight (st : SessionState) (text : List Char)
    (h : st.currentAnalysis.isSome = true) :
    analyzeTextInvoke st text = (st, false) := by
  unfold analyzeTextInvoke
  split
  · rfl
  · simp [h]

/-- Witness for C6: a qualifying text (trimmed length ≥ 10) is still dropped
while an analysis is in flight. -/
theorem analyzeText_singleFlight_witness :
    (Option.isSome (some ("old analysis".data)) = true) ∧
    analyzeTextInvoke ⟨some ("old analysis".data), none⟩ ("this text is long enough".data) =
      (⟨some ("old analysis".data), none⟩, false) :=
  ⟨by decide,
    analyzeText_singleFlight ⟨some ("old analysis".data), none⟩
      ("this text is long enough".data) (by decide)⟩

/-- C1 (counterexample): the case-insensitive relocation branch returns a
span that violates `text.substring(start, end) === problematicText`: for
text `"Hello"` and raw span `(0, 2, "hello")` reconciliation relocates to
`(0, 5)` while keeping the lower-case literal, and `"Hello" ≠ "hello"`. -/
theorem reconcile_breaks_exact_literal :
    reconcile ("Hello".data) ⟨0, 2, "hello".data, [], []⟩ =
      some ⟨0, 5, "hello".data, [], []⟩ ∧
    jsSubstring ("Hello".data) (0 : Int) 5 ≠ "hello".data := by
  decide

/-- C1 (amended): every span returned by reconciliation satisfies the
invariant up to case-folding — lower-casing both sides,
`text.substring(start, end)` equals `problematicText` — for the text it was
validated against.  (The exact-offset and case-sensitive branches give exact
equality; the case-insensitive relocation branch only guarantees the
case-folded form, as the counterexample shows.) -/
theorem reconcile_caseFold_invariant (text : List Char) (s r : Sug)
    (h : reconcile text s = some r) :
    jsToLower (jsSubstring text r.start r.stop) = jsToLower r.problematicText := by
  simp only [reconcile] at h
  split at h
  next h1 =>
    injection h with h
    subst h
    rw [h1]
  next h1 =>
    split at h
    next i h2 =>
      injection h with h
      subst h
      show jsToLower (jsSubstring text (i : Int) ((i : Int) + (s.problematicText.length : Int))) =
        jsToLower s.problematicText
      obtain ⟨hile, hpre⟩ := jsIndexOf_found _ _ _ h2
      have hlen := length_le_of_isPrefixOfDrop hpre hile
      have hcast : ((i : Int) + (s.problematicText.length : Int)) =
          (((i + s.problematicText.length : Nat)) : Int) := by push_cast; ring
      rw [hcast, jsSubstring_coe text i (i + s.problematicText.length) (by omega) hlen,
        slice_of_isPrefixOfDrop hpre]
    next h2 =>
      split at h
      next i h3 =>
        injection h with h
        subst h
        show jsToLower (jsSubstring text (i : Int) ((i : Int) + (s.problematicText.length : Int))) =
          jsToLower s.problematicText
        obtain ⟨hile, hpre⟩ := jsIndexOf_found _ _ _ h3
        have hlt : (jsToLower text).length = text.length := by simp [jsToLower]
        have hlp : (jsToLower s.problematicText).length = s.problematicText.length := by
          simp [jsToLower]
        have hlen0 := length_le_of_isPrefixOfDrop hpre hile
        have hlen : i + s.problematicText.length ≤ text.length := by omega
        have hcast : ((i : Int) + (s.problematicText.length : Int)) =
            (((i + s.problematicText.length : Nat)) : Int) := by push_cast; ring
        rw [hcast, jsSubstring_coe text i (i + s.problematicText.length) (by omega) hlen]
        have hkey : jsToLower ((text.take (i + s.problematicText.length)).drop i) =
            ((jsToLower text).take (i + s.problematicText.length)).drop i := by
          simp [jsToLower, List.map_take, List.map_drop]
        rw [hkey]
        have h5 := slice_of_isPrefixOfDrop hpre
        rw [hlp] at h5
        exact h5
      next h3 =>
        cases h

/-- Witness for C1 (amended) at the counterexample input: the relocated span
`(0, 5)` for `"Hello"` satisfies the case-folded invariant. -/
theorem reconcile_caseFold_invariant_witness :
    (reconcile ("Hello".data) ⟨0, 2, "hello".data, [], []⟩ =
      some ⟨0, 5, "hello".data, [], []⟩) ∧
    jsToLower (jsSubstring ("Hello".data) (0 : Int) 5) = jsToLower ("hello".data) :=
  ⟨by decide,
    reconcile_caseFold_invariant ("Hello".data) ⟨0, 2, "hello".data, [], []⟩
      ⟨0, 5, "hello".data, [], []⟩ (by decide)⟩

/-- C8: when the host's bounding box lies entirely above the viewport top
(`bottom <= 0`), the position update decides the overlay is out of view and
hides it (`display:none`) instead of rendering a degenerate clip,
whatever the ancestor clipping containers and viewport size are. -/
theorem updatePosition_hidden_above_viewport (newRect : Rect)
    (containers : List Rect) (innerWidth innerHeight : Int)
    (hb : newRect.bottom ≤ 0) :
    updatePositionHidden newRect containers innerWidth innerHeight = true := by
  simp only [Rect.bottom] at hb
  simp only [updatePositionHidden, Rect.bottom]
  rw [decide_eq_true_eq]
  left
  rcases hfold : foldMax (fun c => c.top) containers with - | m <;>
    simp only [hfold] <;> split <;> omega

/-- Witness for C8: a 5×5 box whose bottom sits at −5 (entirely above the
viewport) is hidden, with no clipping ancestors and a 100×100 viewport. -/
theorem updatePosition_hidden_above_viewport_witness :
    ((Rect.mk (-10) 0 5 5).bottom ≤ 0) ∧
    updatePositionHidden (Rect.mk (-10) 0 5 5) [] 100 100 = true :=
  ⟨by decide,
    updatePosition_hidden_above_viewport (Rect.mk (-10) 0 5 5) [] 100 100 (by decide)⟩

/-- C7 (counterexample): the overlay projector does not break ties by `end`
ascending — the source comparator is `a.start - b.start` and the sort is
stable, so two spans with equal `start` keep their input order.  For spans
`(0, 5)` then `(0, 2)` over `"Hello"`, the rendered runs differ from the
partition the claim predicts for the `(start, end)`-ordered spans. -/
theorem overlay_tie_order_differs :
    renderRuns [⟨0, 5, "Hello".data, [], []⟩, ⟨0, 2, "He".data, [], []⟩] ("Hello".data) ≠
      partitionRuns ("Hello".data) 0
        (sortByStartStop [⟨0, 5, "Hello".data, [], []⟩, ⟨0, 2, "He".data, [], []⟩]) := by
  decide

/-- C7 (amended): the overlay projector renders the spans sorted by `start`
ascending (ties keep their input order — the sort is stable on `start` only,
not broken by `end`), and for in-bounds, pairwise non-overlapping spans the
rendered runs are exactly the claim's alternating plain/highlighted
partition `[0, s1.start), [s1.start, s1.end), [s1.end, s2.start), ...` of
the sorted spans, covering the whole text in document order. -/
theorem overlay_sorted_partition (sugs : List Sug) (text : List Char)
    (hb : ∀ s ∈ sugs, 0 ≤ s.start ∧ s.start < s.stop ∧ s.stop ≤ (text.length : Int))
    (hno : sugs.Pairwise (fun a b => a.stop ≤ b.start ∨ b.stop ≤ a.start)) :
    renderRuns sugs text = partitionRuns text 0 (sortByStart sugs) ∧
    ((renderRuns sugs text).map Prod.fst).flatten = text ∧
    (sortByStart sugs).Pairwise (fun a b => a.start ≤ b.start) := by
  have hperm : (sortByStart sugs).Perm sugs := List.perm_insertionSort _ _
  have hsorted : (sortByStart sugs).Pairwise (fun a b => a.start ≤ b.start) :=
    List.sorted_insertionSort (fun a b : Sug => a.start ≤ b.start) sugs
  have hb' : ∀ s ∈ sortByStart sugs,
      0 ≤ s.start ∧ s.start < s.stop ∧ s.stop ≤ (text.length : Int) :=
    fun s hs => hb s (hperm.subset hs)
  have hno' : (sortByStart sugs).Pairwise (fun a b => a.stop ≤ b.start ∨ b.stop ≤ a.start) :=
    (List.Perm.pairwise_iff (fun h => Or.symm h) hperm).mpr hno
  have hchain : (sortByStart sugs).Chain' (fun a b => a.stop ≤ b.start) := by
    refine List.Pairwise.chain' (List.Pairwise.imp_of_mem ?_ (hsorted.and hno'))
    intro a b hma hmb hab
    obtain ⟨hle, hor⟩ := hab
    obtain ⟨ha0, halt, _⟩ := hb' a hma
    obtain ⟨hb0, hblt, _⟩ := hb' b hmb
    rcases hor with h | h
    · exact h
    · omega
  have hhead : ∀ s, (sortByStart sugs).head? = some s → (((0 : Nat)) : Int) ≤ s.start := by
    intro s hs
    have hmem : s ∈ sortByStart sugs := List.mem_of_mem_head? (Option.mem_def.mpr hs)
    simpa using (hb' s hmem).1
  have hbcond : ∀ s ∈ sortByStart sugs,
      0 ≤ s.start ∧ s.start ≤ s.stop ∧ s.stop ≤ (text.length : Int) :=
    fun s hs => ⟨(hb' s hs).1, le_of_lt (hb' s hs).2.1, (hb' s hs).2.2⟩
  have heq := buildRuns_eq_partition text (sortByStart sugs) 0 (Nat.zero_le _)
    hhead hbcond hchain
  have hfl := partitionRuns_flatten text (sortByStart sugs) 0 (Nat.zero_le _)
    hhead hbcond hchain
  have hA : renderRuns sugs text = partitionRuns text 0 (sortByStart sugs) := by
    simpa [renderRuns] using heq
  refine ⟨hA, ?_, hsorted⟩
  rw [hA]
  simpa using hfl

/-- Witness for C7 (amended): two non-overlapping spans given out of order
over `"Hello world"` are rendered sorted, and the runs tile the text. -/
theorem overlay_sorted_partition_witness :
    renderRuns [⟨6, 11, "world".data, [], []⟩, ⟨0, 5, "Hello".data, [], []⟩]
        ("Hello world".data) =
      partitionRuns ("Hello world".data) 0
        (sortByStart [⟨6, 11, "world".data, [], []⟩, ⟨0, 5, "Hello".data, [], []⟩]) ∧
    ((renderRuns [⟨6, 11, "world".data, [], []⟩, ⟨0, 5, "Hello".data, [], []⟩]
        ("Hello world".data)).map Prod.fst).flatten = "Hello world".data ∧
    (sortByStart [⟨6, 11, "world".data, [], []⟩, ⟨0, 5, "Hello".data, [], []⟩]).Pairwise
      (fun a b => a.start ≤ b.start) :=
  overlay_sorted_partition
    [⟨6, 11, "world".data, [], []⟩, ⟨0, 5, "Hello".data, [], []⟩]
    ("Hello world".data) (by decide) (by decide)

/-- C9: in the textarea/input highlight path the span offsets are applied to
the HTML-escaped copy of the text, not the raw text.  First part: when no
HTML-escapable character (`&`, `<`, `>`, `"`, `'`) occurs before the span's
end, the highlighted run equals `text.substring(start, end)`.  Second part:
for the text `"a&b"` and the span `(2, 3)` with literal `"b"`, the
highlighted run is `"a"`, which differs from the literal. -/
theorem overlayHighlights_escaped_offsets :
    (∀ (text : List Char) (s : Sug),
      0 ≤ s.start → s.start ≤ s.stop → s.stop ≤ (text.length : Int) →
      (∀ c ∈ text.take s.stop.toNat,
        c ≠ '&' ∧ c ≠ '<' ∧ c ≠ '>' ∧ c ≠ '"' ∧ c ≠ '\'') →
      overlayHighlightRuns [s] text = [jsSubstring text s.start s.stop]) ∧
    (overlayHighlightRuns [⟨2, 3, "b".data, [], []⟩] ("a&b".data) = ["a".data] ∧
      ("a".data ≠ "b".data)) := by
  constructor
  · intro text s hs0 hsse hsl hok
    set aN := s.start.toNat with haN
    set bN := s.stop.toNat with hbN
    have ha : (aN : Int) = s.start := Int.toNat_of_nonneg hs0
    have hb2 : (bN : Int) = s.stop := Int.toNat_of_nonneg (le_trans hs0 hsse)
    have h2 : aN ≤ bN := by omega
    have h3 : bN ≤ text.length := by omega
    have hsplit : escapeHtml text = text.take bN ++ escapeHtml (text.drop bN) :=
      escapeHtml_take_eq text bN (fun c hc => ⟨(hok c hc).1, (hok c hc).2.1, (hok c hc).2.2.1⟩)
    have hlen : bN ≤ (escapeHtml text).length := by
      rw [hsplit]
      have : (text.take bN).length = bN := by
        simp [List.length_take, Nat.min_eq_left h3]
      simp [this]
    have hruns : overlayHighlightRuns [s] text =
        [jsSubstring (escapeHtml text) s.start s.stop] := rfl
    rw [hruns, ← ha, ← hb2, jsSubstring_coe _ aN bN h2 hlen,
      jsSubstring_coe text aN bN h2 h3, hsplit]
    have hlt : (text.take bN).length = bN := by
      simp [List.length_take, Nat.min_eq_left h3]
    have htk : (text.take bN ++ escapeHtml (text.drop bN)).take bN = text.take bN :=
      List.take_left' hlt
    rw [htk]
  · exact ⟨by decide, by decide⟩

/-- Witness for C9's universally quantified part: over `"hello"` (no
escapable characters) the span `(0, 4)` highlights exactly
`text.substring(0, 4) = "hell"`. -/
theorem overlayHighlights_escaped_offsets_witness :
    overlayHighlightRuns [⟨0, 4, "hell".data, [], []⟩] ("hello".data) =
      [jsSubstring ("hello".data) (0 : Int) 4] :=
  overlayHighlights_escaped_offsets.1 ("hello".data) ⟨0, 4, "hell".data, [], []⟩
    (by decide) (by decide) (by decide) (by decide)

/-- C10: the debounce timer is one global slot shared by all monitored
elements: after a qualifying input event on any element, that element's
analysis is the unique pending one, so any previously pending debounced
analysis — for this or any other element — has been cancelled. -/
theorem debounce_single_global (settings : Settings) (st : PageState)
    (element : Nat) (text : List Char)
    (hen : settings.enabled = true) (hkey : settings.apiKey ≠ []) :
    (handleTextInput settings st element text).analysisTimeout = some (element, text) ∧
    ∀ e' t', e' ≠ element →
      (handleTextInput settings st element text).analysisTimeout ≠ some (e', t') := by
  unfold handleTextInput
  simp only [hen, Bool.not_true, Bool.false_or]
  rw [if_neg (by simp [hkey])]
  refine ⟨rfl, ?_⟩
  intro e' t' hne
  simp [hne.symm]

/-- Witness for C10: an input on element 2 overwrites the pending debounced
analysis that element 1 had queued. -/
theorem debounce_single_global_witness :
    ((⟨true, "key".data⟩ : Settings).enabled = true) ∧
    (handleTextInput ⟨true, "key".data⟩ ⟨some (1, "first element text".data)⟩ 2
        ("second element text".data)).analysisTimeout =
      some (2, "second element text".data) :=
  ⟨by decide,
    (debounce_single_global ⟨true, "key".data⟩ ⟨some (1, "first element text".data)⟩ 2
      ("second element text".data) (by decide) (by decide)).1⟩

end LangHelper
